import Mathlib

/-!
Verification of the widget-composition core of the `rcui` crate
(`src/lib.rs`), a minimal terminal-UI layer: geometry, leaf widgets
(`Text`, `ItemList`), linear containers (`HBox`, `VBox`), the decorator
proxies (`Proxy`, `HardProxy`), and the runtime driver (`exec`, the panic
hook, the event queue of the driver described by the design document).

`f32` coordinates are modelled by exact rationals (the design document
states layout properties "modulo floating-point rounding"); `usize`
arithmetic is modelled by `Nat` with explicit wrap-around modulo `2 ^ 64`
where the source can underflow.
-/

/-- Modulus of `usize` on a 64-bit target. -/
def USIZE : Nat := 2 ^ 64

/-- `Rect { x, y, w, h }` (`src/lib.rs:7-12`); `f32` fields modelled as `ℚ`. -/
structure Rect where
  x : ℚ
  y : ℚ
  w : ℚ
  h : ℚ
  deriving DecidableEq

/-- `Event` (`src/lib.rs:14-16`): the only variant in the source is
`KeyStroke(i32)`. -/
inductive Event where
  | KeyStroke (code : Int)
  deriving DecidableEq

/-- The color-pair roles registered by `exec` (`src/lib.rs:261-263`); the
`style` module itself only names the three constants, so they are modelled
as an enumeration of three distinct roles. -/
inductive ColorPair where
  | REGULAR_PAIR
  | CURSOR_PAIR
  | UNFOCUSED_CURSOR_PAIR
  deriving DecidableEq

/-- `ItemList<T>` (`src/lib.rs:179-182`): a vector of items plus a `usize`
cursor. -/
structure ItemList (T : Type) where
  items : List T
  cursor : Nat
  deriving DecidableEq

/-- `ItemList::new` (`src/lib.rs:185-190`): stores the items, cursor 0. -/
def ItemList.new {T : Type} (items : List T) : ItemList T :=
  { items := items, cursor := 0 }

/-- `ItemList::up` (`src/lib.rs:192-196`): decrement the cursor if it is
positive. -/
def ItemList.up {T : Type} (s : ItemList T) : ItemList T :=
  if s.cursor > 0 then { s with cursor := s.cursor - 1 } else s

/-- `ItemList::down` (`src/lib.rs:198-202`), release-build semantics: the
guard compares the cursor against `self.items.len() - 1`, an unsigned
subtraction that wraps modulo `2 ^ 64` when the list is empty
(`wrapping_sub len 1 = (len + (USIZE - 1)) % USIZE` for `len < USIZE`).
Under the guard the increment itself cannot overflow. -/
def ItemList.down {T : Type} (s : ItemList T) : ItemList T :=
  if s.cursor < (s.items.length + (USIZE - 1)) % USIZE then
    { s with cursor := s.cursor + 1 }
  else s

/-- `ItemList::down` (`src/lib.rs:198-202`), debug-build semantics: the
unsigned subtraction `self.items.len() - 1` panics on underflow, so on an
empty list the call aborts (`none`); otherwise it behaves like the exact
arithmetic. -/
def ItemList.downChecked {T : Type} (s : ItemList T) : Option (ItemList T) :=
  if s.items.length = 0 then none
  else some (if s.cursor < s.items.length - 1 then { s with cursor := s.cursor + 1 } else s)

/-- Modelled from the spec: `remove` is absent from `src/lib.rs`
(`TODO(#4): ItemList is not finished`; `examples/04_transfer_list.rs` calls
it). Design document §4.3: "removes and returns the item at `cursor`; fails
(precondition violation) if the list is empty; after removal, cursor remains
unchanged unless it now exceeds the new last valid index, in which case
implementations must clamp it to stay within bounds", and §8: afterwards
`0 ≤ cursor < max(length, 1)`. The clamp to the new last valid index
`newLen - 1 = length - 2` is `min cursor (length - 2)`. -/
def ItemList.remove {T : Type} (s : ItemList T) : Option (T × ItemList T) :=
  if s.items.isEmpty then none
  else
    (s.items.get? s.cursor).map fun x =>
      (x, { items := s.items.eraseIdx s.cursor,
            cursor := min s.cursor (s.items.length - 2) })

/-- The cursor invariant of `ItemList` (design document §3): whenever the
list is non-empty, `0 ≤ cursor < items.length` (the lower bound is inherent
to `Nat`/`usize`). -/
def ItemList.inv {T : Type} (s : ItemList T) : Prop :=
  s.items ≠ [] → s.cursor < s.items.length

/-- Byte-range prefix lookup on a string, modelling Rust's
`str::get(..k)` (`src/lib.rs:130-133`). The string is modelled as the list
of the byte lengths of its characters (one display cell per character).
`str::get(..k)` returns the prefix of `k` bytes when `k` lands on a
character boundary and `k ≤` total byte length, and `None` otherwise
(out-of-bounds range or a boundary inside a multi-byte character). -/
def takeBytes : Nat → List Nat → Option (List Nat)
  | 0, _ => some []
  | _ + 1, [] => none
  | k + 1, c :: rest =>
    if c ≤ k + 1 then (takeBytes (k + 1 - c) rest).map (c :: ·) else none

/-- The string `Text::render` displays (`src/lib.rs:130-133`):
`self.text.get(..rect.w.floor() as usize).unwrap_or(&self.text)` — the
`floor(w)`-byte prefix when that byte index is a valid character boundary,
and the whole text otherwise. -/
def Text.truncated (text : List Nat) (w : Nat) : List Nat :=
  (takeBytes w text).getD text

/-- `Text::render`'s displayed string for a target rectangle
(`src/lib.rs:129-134`): `rect.w.floor() as usize` is `Int.toNat ∘ Rat.floor`
(the `as usize` cast saturates negative values to 0). -/
def Text.rendered (text : List Nat) (rect : Rect) : List Nat :=
  Text.truncated text (Int.toNat rect.w.floor)

/-- `HBox::render` (`src/lib.rs:38-49`): with `n` children, child `i` is
rendered into `Rect { x: rect.x + (rect.w / n) * i, y: rect.y,
w: rect.w / n, h: rect.h }`; the result lists the child rectangles in
child order. -/
def HBox.render (rect : Rect) (n : Nat) : List Rect :=
  (List.range n).map fun (i : Nat) =>
    { x := rect.x + rect.w / (n : ℚ) * (i : ℚ), y := rect.y,
      w := rect.w / (n : ℚ), h := rect.h }

/-- `VBox::render` (`src/lib.rs:73-84`): with `n` children, child `i` is
rendered into `Rect { x: rect.x, y: rect.y + (rect.h / n) * i,
w: rect.w, h: rect.h / n }`. -/
def VBox.render (rect : Rect) (n : Nat) : List Rect :=
  (List.range n).map fun (i : Nat) =>
    { x := rect.x, y := rect.y + rect.h / (n : ℚ) * (i : ℚ),
      w := rect.w, h := rect.h / (n : ℚ) }

/-- The rows emitted by `ItemList::render` (`src/lib.rs:206-234`), as pairs
(row index, color pair): the loop draws row `i` for item `i` (at
`y = rect.y + i`, top-aligned, height 1) with the cursor row in
`CURSOR_PAIR` and every other row in `REGULAR_PAIR`, and only *after*
drawing tests `i as f32 >= rect.h` to break out of the loop. -/
def ItemList.renderRows {T : Type} (cursor : Nat) (h : ℚ) : Nat → List T → List (Nat × ColorPair)
  | _, [] => []
  | i, _ :: rest =>
    (i, if i = cursor then ColorPair.CURSOR_PAIR else ColorPair.REGULAR_PAIR) ::
      (if h ≤ (i : ℚ) then [] else ItemList.renderRows cursor h (i + 1) rest)

/-- `ItemList::render` over the whole item list, starting at row 0. -/
def ItemList.render {T : Type} (s : ItemList T) (rect : Rect) : List (Nat × ColorPair) :=
  ItemList.renderRows s.cursor rect.h 0 s.items

/-- `HardProxy<T>` (`src/lib.rs:283-286`): a root widget of state `σ` plus
`handler: fn(&mut T, &Event)`, modelled as a state transformer on the
root. -/
structure HardProxy (σ : Type) where
  root : σ
  handler : σ → Event → σ

/-- `HardProxy::handle_event` (`src/lib.rs:299-301`): only
`(self.handler)(&mut self.root, event)` runs — the proxy itself never
forwards the event to the root widget; the handler receives the root and
decides what to do with it. -/
def HardProxy.handle_event {σ : Type} (p : HardProxy σ) (e : Event) : HardProxy σ :=
  { p with root := p.handler p.root e }

/-- `Proxy` (`src/lib.rs:304-307`): a boxed root widget plus
`handler: fn(&Event)`. The root's `handle_event` behaviour is modelled by
an explicit state transformer `rootHandle` on the root state `σ`; the
handler has no access to the root and its observable output is modelled by
a value of type `ω`. -/
structure Proxy (σ ω : Type) where
  root : σ
  rootHandle : σ → Event → σ
  handler : Event → ω

/-- `Proxy::handle_event` (`src/lib.rs:320-323`): `(self.handler)(event);`
then, unconditionally, `self.root.handle_event(event)`. The result pairs
the handler's output with the proxy whose root has handled the event. -/
def Proxy.handle_event {σ ω : Type} (p : Proxy σ ω) (e : Event) : ω × Proxy σ ω :=
  (p.handler e, { p with root := p.rootHandle p.root e })

/-- Observable terminal-level effects of a panic hook run: the `endwin()`
call that restores the terminal, or an effect of the pre-existing
(default) reporting hook, abstracted by its payload. -/
inductive Effect where
  | endwin
  | report (payload : String)
  deriving DecidableEq

/-- The process-wide panic hook `exec` installs (`src/lib.rs:265-271`):
`set_hook` replaces the hook previously returned by `take_hook`
(`default_hook`) with a closure that first calls `endwin()` and then
invokes `default_hook` on the panic payload. A hook is modelled as the
trace of effects it performs on a payload. -/
def execPanicHook (default_hook : String → List Effect) (payload : String) : List Effect :=
  Effect.endwin :: default_hook payload

/-- Modelled from the spec: the FIFO event queue and per-frame drain loop
of the runtime driver are not part of `src/lib.rs` (the `exec` there,
`src/lib.rs:273-278`, dispatches the single key-stroke event directly and
has no queue; `examples/04_transfer_list.rs` calls the queue's
`push_event`). Design document §4.7/§5: after the key stroke is enqueued,
the driver repeatedly pops the *front* event and dispatches it to the root
widget, whose handler may append newly produced events at the *back* of
the same queue; the drain ends (before the next frame renders) when the
queue is empty. `dispatch e` is the list of events the root's handler
enqueues while handling `e`; `fuel` bounds the number of dispatch steps;
the result is the sequence of events delivered to the root widget, in
delivery order. -/
def drainQueue (dispatch : Event → List Event) : Nat → List Event → List Event
  | 0, _ => []
  | _ + 1, [] => []
  | fuel + 1, e :: rest => e :: drainQueue dispatch fuel (rest ++ dispatch e)

/-- C1: the hook `exec` installs runs `endwin` (the terminal-restoring
`shutdown()`) strictly before the default panic-reporting hook: on every
panic payload its trace is non-empty, starts with `endwin`, and the rest of
the trace is exactly the default hook's run — every effect of the default
reporting mechanism happens strictly after the terminal is restored, so the
terminal is never left in raw mode after a crash. -/
theorem exec_hook_endwin_before_default
    (default_hook : String → List Effect) (payload : String) :
    execPanicHook default_hook payload ≠ [] ∧
    (execPanicHook default_hook payload).head? = some Effect.endwin ∧
    (execPanicHook default_hook payload).tail = default_hook payload ∧
    ∀ k : Nat, (default_hook payload).get? k =
      (execPanicHook default_hook payload).get? (k + 1) :=
  ⟨by simp [execPanicHook], rfl, rfl, fun _ => rfl⟩

/-- C2, counterexample: a `Proxy` whose handler does nothing (and whose
wrapped widget logs every event it receives) still delivers the event to
the wrapped widget — `Proxy::handle_event` forwards unconditionally after
invoking the handler, so a do-nothing handler does *not* suppress the
event for the wrapped widget. -/
theorem proxy_forwards_despite_noop_handler :
    ((Proxy.handle_event
        { root := ([] : List Event), rootHandle := fun l ev => l ++ [ev],
          handler := fun _ => () }
        (Event.KeyStroke 113)).2.root = [Event.KeyStroke 113]) ∧
    [Event.KeyStroke 113] ≠ ([] : List Event) :=
  ⟨rfl, by decide⟩

/-- C2, amended: for every `Proxy` and event, `handle_event` invokes the
stored handler with the event (the handler's output is exactly
`handler e`) and then *unconditionally* forwards the event to the wrapped
widget (the new root state is always `rootHandle root e`); it is
`HardProxy` for which forwarding is the handler's responsibility: its
`handle_event` only invokes the handler with the wrapped widget and the
event, so a do-nothing handler suppresses the event there while a
forwarding handler delivers it. -/
theorem proxy_auto_forwards_hardProxy_handler_authority
    {σ ω : Type} (p : Proxy σ ω) (e : Event) (log : List Event) :
    ((Proxy.handle_event p e).1 = p.handler e) ∧
    ((Proxy.handle_event p e).2.root = p.rootHandle p.root e) ∧
    ((Proxy.handle_event
        { root := log, rootHandle := fun l ev => l ++ [ev], handler := fun _ => () }
        e).2.root = log ++ [e]) ∧
    ((HardProxy.handle_event { root := log, handler := fun l _ => l } e).root = log) ∧
    ((HardProxy.handle_event { root := log, handler := fun l ev => l ++ [ev] } e).root
      = log ++ [e]) :=
  ⟨rfl, rfl, rfl, rfl, rfl⟩

/-- C10: evaluating `ItemList::down` on the empty list. The guard computes
`self.items.len() - 1 = 0usize - 1`, which underflows: in a debug build the
subtraction panics (`downChecked` returns `none`), and in a release build
it wraps to `2 ^ 64 - 1`, the guard `0 < 2 ^ 64 - 1` holds, and the cursor
is incremented to 1 instead of staying 0. -/
theorem down_on_empty_list_eval :
    ItemList.downChecked (⟨[], 0⟩ : ItemList Nat) = none ∧
    (ItemList.down (⟨[], 0⟩ : ItemList Nat)).cursor = 1 := by
  constructor
  · decide
  · decide

/-- C3: the per-frame queue drain is strictly FIFO — for every dispatch
behaviour, enough fuel, and pending queue, the first `q.length` events
delivered are exactly the queue in order; and in the concrete scenario of
the claim, with queue `[A, B, C]` (key strokes 65, 66, 67) where
dispatching `A` enqueues `D` (key stroke 68), the delivery order of the
frame is exactly `[A, B, C, D]`: `D` is delivered strictly after `C`,
before the drain ends (and hence before the next frame renders). -/
theorem drainQueue_fifo_order :
    (∀ (d : Event → List Event) (fuel : Nat) (q : List Event) (n : Nat),
        n ≤ q.length → n ≤ fuel → (drainQueue d fuel q).take n = q.take n) ∧
    drainQueue (fun e => if e = Event.KeyStroke 65 then [Event.KeyStroke 68] else []) 10
        [Event.KeyStroke 65, Event.KeyStroke 66, Event.KeyStroke 67] =
      [Event.KeyStroke 65, Event.KeyStroke 66, Event.KeyStroke 67, Event.KeyStroke 68] := by
  constructor
  · intro d fuel
    induction fuel with
    | zero =>
      intro q n h1 h2
      have hn : n = 0 := by omega
      subst hn; simp
    | succ fuel ih =>
      intro q n h1 h2
      cases q with
      | nil =>
        have hn : n = 0 := by simp at h1; omega
        subst hn; simp
      | cons e rest =>
        cases n with
        | zero => simp
        | succ m =>
          have hm : m ≤ rest.length := by simp at h1; omega
          rw [drainQueue, List.take_succ_cons, List.take_succ_cons,
            ih (rest ++ d e) m (by simp; omega) (by omega),
            List.take_append_of_le_length hm]
  · decide

/-- C3, witness: the FIFO prefix property applied to the concrete queue
`[1, 2, 3]` with a dispatch that enqueues nothing. -/
theorem drainQueue_fifo_order_witness :
    (drainQueue (fun _ => []) 3
        [Event.KeyStroke 1, Event.KeyStroke 2, Event.KeyStroke 3]).take 3 =
      [Event.KeyStroke 1, Event.KeyStroke 2, Event.KeyStroke 3].take 3 :=
  drainQueue_fifo_order.1 (fun _ => []) 3
    [Event.KeyStroke 1, Event.KeyStroke 2, Event.KeyStroke 3] 3 (by decide) (by decide)

lemma usize_pos : 0 < USIZE := by
  unfold USIZE
  positivity

/-- For a non-empty list that fits in `usize`, the wrapped guard bound
`(len + (USIZE - 1)) % USIZE` of `ItemList.down` is the exact `len - 1`. -/
lemma down_bound_of_nonempty (len : Nat) (h1 : 0 < len) (h2 : len < USIZE) :
    (len + (USIZE - 1)) % USIZE = len - 1 := by
  have hU := usize_pos
  have h3 : len + (USIZE - 1) = (len - 1) + USIZE := by omega
  rw [h3, Nat.add_mod_right]
  exact Nat.mod_eq_of_lt (by omega)

/-- On a non-empty list that fits in `usize`, `ItemList.down` behaves as
the exact-arithmetic conditional increment. -/
lemma down_apply_nonempty {T : Type} (s : ItemList T)
    (h1 : 0 < s.items.length) (h2 : s.items.length < USIZE) :
    ItemList.down s =
      if s.cursor < s.items.length - 1 then
        (⟨s.items, s.cursor + 1⟩ : ItemList T)
      else s := by
  unfold ItemList.down
  rw [down_bound_of_nonempty s.items.length h1 h2]

/-- C4: the cursor invariant `0 ≤ cursor < items.length` (for a non-empty
list) holds after `ItemList::new` and is preserved by `ItemList::up` and by
`ItemList::down` (whose item vector fits in `usize`, as every Rust `Vec`
does). -/
theorem itemList_invariant_new_up_down {T : Type} (items : List T) (s : ItemList T)
    (hfit : s.items.length < USIZE) :
    ItemList.inv (ItemList.new items) ∧
    (ItemList.inv s → ItemList.inv (ItemList.up s)) ∧
    (ItemList.inv s → ItemList.inv (ItemList.down s)) := by
  refine ⟨?_, ?_, ?_⟩
  · intro hne
    simpa [ItemList.new] using List.length_pos.mpr hne
  · intro hinv
    unfold ItemList.up
    split
    · intro hne
      exact lt_of_le_of_lt (Nat.sub_le _ _) (hinv hne)
    · exact hinv
  · intro hinv
    unfold ItemList.down
    split
    · rename_i hlt
      intro hne
      have hlen : 0 < s.items.length := List.length_pos.mpr hne
      rw [down_bound_of_nonempty s.items.length hlen hfit] at hlt
      show s.cursor + 1 < s.items.length
      omega
    · exact hinv

/-- C4, witness: the invariant facts at the concrete list `[1, 2]` with
cursor 1. -/
theorem itemList_invariant_new_up_down_witness :
    ItemList.inv (ItemList.new [1, 2]) ∧
    (ItemList.inv (⟨[1, 2], 1⟩ : ItemList Nat) →
      ItemList.inv (ItemList.up (⟨[1, 2], 1⟩ : ItemList Nat))) ∧
    (ItemList.inv (⟨[1, 2], 1⟩ : ItemList Nat) →
      ItemList.inv (ItemList.down (⟨[1, 2], 1⟩ : ItemList Nat))) :=
  itemList_invariant_new_up_down [1, 2] ⟨[1, 2], 1⟩ (by decide)

/-- `ItemList.up` always maps the cursor to its predecessor (truncated at
0, where the guard makes it a no-op). -/
lemma up_apply {T : Type} (s : ItemList T) :
    ItemList.up s = ⟨s.items, s.cursor - 1⟩ := by
  unfold ItemList.up
  split
  · rfl
  · rename_i hc
    cases s with
    | mk items cursor =>
      have h0 : cursor = 0 := by simp at hc; omega
      simp [h0]

lemma up_iterate {T : Type} (s : ItemList T) (k : Nat) :
    ItemList.up^[k] s = ⟨s.items, s.cursor - k⟩ := by
  induction k generalizing s with
  | zero => simp
  | succ k ih =>
    rw [Function.iterate_succ_apply, up_apply, ih]
    simp
    omega

lemma down_iterate {T : Type} (s : ItemList T)
    (h1 : 0 < s.items.length) (h2 : s.items.length < USIZE)
    (hc : s.cursor ≤ s.items.length - 1) (k : Nat) :
    ItemList.down^[k] s = ⟨s.items, min (s.cursor + k) (s.items.length - 1)⟩ := by
  induction k with
  | zero =>
    have hmin : min (s.cursor + 0) (s.items.length - 1) = s.cursor := by omega
    rw [Function.iterate_zero_apply, hmin]
  | succ k ih =>
    rw [Function.iterate_succ_apply', ih,
      down_apply_nonempty (⟨s.items, min (s.cursor + k) (s.items.length - 1)⟩ : ItemList T) h1 h2]
    split
    · rename_i hlt
      simp only [ItemList.mk.injEq, true_and]
      simp at hlt
      omega
    · rename_i hge
      simp only [ItemList.mk.injEq, true_and]
      simp at hge
      omega

/-- C5: for an `ItemList` with `N > 0` items (fitting in `usize`) whose
cursor is in bounds, `k` repeated `up()` calls with `k ≥ cursor` reach
cursor 0 and any number of further `up()` calls stays there (so `up()` at
cursor 0 is a no-op), and `k` repeated `down()` calls with
`k ≥ N - 1 - cursor` reach cursor `N - 1` and any number of further
`down()` calls stays there (so `down()` at cursor `N - 1` is a no-op). -/
theorem itemList_up_down_converge {T : Type} (s : ItemList T) (k : Nat)
    (hne : 0 < s.items.length) (hcur : s.cursor < s.items.length)
    (hfit : s.items.length < USIZE) :
    (s.cursor ≤ k → ItemList.up^[k] s = ⟨s.items, 0⟩) ∧
    (ItemList.up^[k] (⟨s.items, 0⟩ : ItemList T) = ⟨s.items, 0⟩) ∧
    (s.items.length - 1 - s.cursor ≤ k →
      ItemList.down^[k] s = ⟨s.items, s.items.length - 1⟩) ∧
    (ItemList.down^[k] (⟨s.items, s.items.length - 1⟩ : ItemList T)
      = ⟨s.items, s.items.length - 1⟩) := by
  refine ⟨?_, ?_, ?_, ?_⟩
  · intro hk
    rw [up_iterate]
    simp only [ItemList.mk.injEq, true_and]
    omega
  · rw [up_iterate]
    simp
  · intro hk
    rw [down_iterate s hne hfit (by omega) k]
    simp only [ItemList.mk.injEq, true_and]
    omega
  · rw [down_iterate (⟨s.items, s.items.length - 1⟩ : ItemList T) hne hfit (le_refl _) k]
    simp only [ItemList.mk.injEq, true_and]
    omega

/-- C5, witness: on `[1, 2, 3]` with cursor 1, two `up()` calls reach
cursor 0. -/
theorem itemList_up_down_converge_witness :
    ItemList.up^[2] (⟨[1, 2, 3], 1⟩ : ItemList Nat) = ⟨[1, 2, 3], 0⟩ :=
  (itemList_up_down_converge (⟨[1, 2, 3], 1⟩ : ItemList Nat) 2
    (by decide) (by decide) (by decide)).1 (by decide)

/-- C6: `ItemList.remove` (modelled from the spec, see its definition)
fails exactly on the empty list, and on a list satisfying the cursor
invariant it returns the item previously at the cursor, shortens the items
by one, and leaves the cursor unchanged unless it would now exceed the new
last valid index, in which case it clamps it there; in every successful
case `0 ≤ cursor < max(length, 1)` holds afterwards. -/
theorem itemList_remove_spec {T : Type} (s : ItemList T) :
    (s.items = [] → ItemList.remove s = none) ∧
    (s.cursor < s.items.length →
      ∃ x s', ItemList.remove s = some (x, s') ∧
        s.items.get? s.cursor = some x ∧
        s'.items = s.items.eraseIdx s.cursor ∧
        s'.items.length = s.items.length - 1 ∧
        s'.cursor < max s'.items.length 1 ∧
        (s.cursor < s'.items.length → s'.cursor = s.cursor) ∧
        (s'.items.length ≤ s.cursor → s'.cursor = s'.items.length - 1)) := by
  constructor
  · intro h
    unfold ItemList.remove
    simp [h]
  · intro hc
    have hne : s.items ≠ [] := by
      intro h
      rw [h] at hc
      simp at hc
    obtain ⟨x, hx⟩ : ∃ x, s.items.get? s.cursor = some x := by
      rw [List.get?_eq_get hc]
      exact ⟨_, rfl⟩
    have hempty : s.items.isEmpty = false := by
      simp [List.isEmpty_iff]
      exact hne
    have hlen' : (s.items.eraseIdx s.cursor).length = s.items.length - 1 := by
      rw [List.length_eraseIdx]
      simp [hc]
    refine ⟨x, ⟨s.items.eraseIdx s.cursor, min s.cursor (s.items.length - 2)⟩, ?_, hx,
      rfl, hlen', ?_, ?_, ?_⟩
    · unfold ItemList.remove
      rw [hempty, hx]
      rfl
    · show min s.cursor (s.items.length - 2) < max (s.items.eraseIdx s.cursor).length 1
      rw [hlen']
      omega
    · intro h
      rw [hlen'] at h
      show min s.cursor (s.items.length - 2) = s.cursor
      omega
    · intro h
      rw [hlen'] at h
      show min s.cursor (s.items.length - 2) = (s.items.eraseIdx s.cursor).length - 1
      rw [hlen']
      omega

/-- C6, witness: removing from `[10, 20]` with cursor 1. -/
theorem itemList_remove_spec_witness :
    ∃ x s', ItemList.remove (⟨[10, 20], 1⟩ : ItemList Nat) = some (x, s') ∧
      ([10, 20] : List Nat).get? 1 = some x ∧
      s'.items = ([10, 20] : List Nat).eraseIdx 1 ∧
      s'.items.length = ([10, 20] : List Nat).length - 1 ∧
      s'.cursor < max s'.items.length 1 ∧
      (1 < s'.items.length → s'.cursor = 1) ∧
      (s'.items.length ≤ 1 → s'.cursor = s'.items.length - 1) :=
  (itemList_remove_spec (⟨[10, 20], 1⟩ : ItemList Nat)).2 (by decide)

/-- A successful byte-prefix lookup consumes exactly `k` bytes. -/
lemma takeBytes_sum : ∀ (k : Nat) (text s : List Nat),
    takeBytes k text = some s → s.sum = k := by
  intro k text
  induction text generalizing k with
  | nil =>
    intro s h
    cases k with
    | zero =>
      simp [takeBytes] at h
      subst h
      simp
    | succ k => simp [takeBytes] at h
  | cons c rest ih =>
    intro s h
    cases k with
    | zero =>
      simp [takeBytes] at h
      subst h
      simp
    | succ k =>
      rw [takeBytes] at h
      by_cases hck : c ≤ k + 1
      · rw [if_pos hck] at h
        cases ht : takeBytes (k + 1 - c) rest with
        | none => rw [ht] at h; simp at h
        | some t =>
          rw [ht] at h
          simp at h
          have := ih (k + 1 - c) t ht
          rw [← h]
          simp [this]
          omega
      · rw [if_neg hck] at h
        simp at h

/-- Every character of a successful byte-prefix lookup comes from the
original string. -/
lemma takeBytes_subset : ∀ (k : Nat) (text s : List Nat),
    takeBytes k text = some s → ∀ b ∈ s, b ∈ text := by
  intro k text
  induction text generalizing k with
  | nil =>
    intro s h
    cases k with
    | zero =>
      simp [takeBytes] at h
      subst h
      simp
    | succ k => simp [takeBytes] at h
  | cons c rest ih =>
    intro s h
    cases k with
    | zero =>
      simp [takeBytes] at h
      subst h
      simp
    | succ k =>
      rw [takeBytes] at h
      by_cases hck : c ≤ k + 1
      · rw [if_pos hck] at h
        cases ht : takeBytes (k + 1 - c) rest with
        | none => rw [ht] at h; simp at h
        | some t =>
          rw [ht] at h
          simp at h
          intro b hb
          rw [← h] at hb
          rcases List.mem_cons.mp hb with hb | hb
          · simp [hb]
          · exact List.mem_cons_of_mem _ (ih (k + 1 - c) t ht b hb)
      · rw [if_neg hck] at h
        simp at h

/-- A list of positive byte lengths has at least as many bytes as
characters. -/
lemma length_le_sum (l : List Nat) (h : ∀ b ∈ l, 1 ≤ b) : l.length ≤ l.sum := by
  induction l with
  | nil => simp
  | cons c rest ih =>
    simp only [List.length_cons, List.sum_cons]
    have h1 : 1 ≤ c := h c (List.mem_cons_self c rest)
    have h2 : rest.length ≤ rest.sum := ih fun b hb => h b (List.mem_cons_of_mem _ hb)
    omega

/-- C7, counterexample: a two-character text whose characters occupy two
bytes each (e.g. `"éé"`), rendered into a rectangle of width 1. The byte
index `floor(rect.w) = 1` falls inside the first character, so
`str::get(..1)` fails and `unwrap_or` falls back to the whole text: the
rendered content is 2 cells wide, not at most `floor(rect.width) = 1` —
the characters written are not confined to the rectangle. -/
theorem text_truncated_cex :
    (Text.rendered [2, 2] ⟨0, 0, 1, 1⟩).length = 2 ∧
    ¬ (Text.rendered [2, 2] ⟨0, 0, 1, 1⟩).length ≤ Int.toNat (Rect.mk 0 0 1 1).w.floor := by
  constructor
  · decide
  · decide

/-- C7, amended: for every content string each of whose characters occupies
at least one byte, `Text::render`'s displayed content is at most
`floor(rect.width)` cells (a single line, never wrapped) *provided*
`floor(rect.width)` lands on a character boundary of the string or at/past
its end — in particular for every single-byte-encoded (ASCII) string. When
`floor(rect.width)` falls strictly inside a multi-byte character the code
falls back to the whole string, which can exceed the rectangle (see the
counterexample). -/
theorem text_truncated_within_width (text : List Nat) (rect : Rect)
    (hchar : ∀ b ∈ text, 1 ≤ b)
    (hok : (takeBytes (Int.toNat rect.w.floor) text).isSome ∨
      text.sum ≤ Int.toNat rect.w.floor) :
    (Text.rendered text rect).length ≤ Int.toNat rect.w.floor := by
  unfold Text.rendered Text.truncated
  cases h : takeBytes (Int.toNat rect.w.floor) text with
  | some s =>
    simp only [h, Option.getD_some]
    have hsum := takeBytes_sum _ text s h
    have hsub := takeBytes_subset _ text s h
    have := length_le_sum s fun b hb => hchar b (hsub b hb)
    omega
  | none =>
    simp only [h, Option.getD_none]
    rcases hok with hok | hok
    · rw [h] at hok
      simp at hok
    · exact le_trans (length_le_sum text hchar) hok

/-- C7, witness: an ASCII text of three 1-byte characters in a rectangle
of width 2 renders at most 2 cells. -/
theorem text_truncated_within_width_witness :
    (Text.rendered [1, 1, 1] ⟨0, 0, 2, 1⟩).length ≤ Int.toNat (Rect.mk 0 0 2 1).w.floor :=
  text_truncated_within_width [1, 1, 1] ⟨0, 0, 2, 1⟩ (by decide) (Or.inl (by decide))

/-- Row indices and colors of `ItemList.renderRows`: every emitted row is
either the very first one or has index strictly below `h + 1`, and a row
uses the cursor color exactly when it is the cursor row. -/
lemma renderRows_mem {T : Type} (cursor : Nat) (h : ℚ) :
    ∀ (items : List T) (i j : Nat) (col : ColorPair),
      (j, col) ∈ ItemList.renderRows cursor h i items →
      (j = i ∨ (j : ℚ) < h + 1) ∧ (col = ColorPair.CURSOR_PAIR ↔ j = cursor) := by
  intro items
  induction items with
  | nil =>
    intro i j col hmem
    simp [ItemList.renderRows] at hmem
  | cons a rest ih =>
    intro i j col hmem
    rw [ItemList.renderRows] at hmem
    rcases List.mem_cons.mp hmem with heq | hmem'
    · have hj : j = i := congrArg Prod.fst heq
      have hcol : col = if i = cursor then ColorPair.CURSOR_PAIR else ColorPair.REGULAR_PAIR :=
        congrArg Prod.snd heq
      subst hj
      refine ⟨Or.inl rfl, ?_⟩
      by_cases hic : j = cursor
      · simp [hic] at hcol
        simp [hic, hcol]
      · simp [hic] at hcol
        simp [hic, hcol]
    · by_cases hbreak : h ≤ (i : ℚ)
      · rw [if_pos hbreak] at hmem'
        simp at hmem'
      · rw [if_neg hbreak] at hmem'
        have hlt : (i : ℚ) < h := lt_of_not_le hbreak
        have := ih (i + 1) j col hmem'
        refine ⟨?_, this.2⟩
        rcases this.1 with hj | hj
        · subst hj
          right
          push_cast
          linarith
        · exact Or.inr hj

/-- The row indices emitted by `ItemList.renderRows` starting at `i` are
consecutive from `i`. -/
lemma renderRows_map_fst {T : Type} (cursor : Nat) (h : ℚ) :
    ∀ (items : List T) (i : Nat),
      (ItemList.renderRows cursor h i items).map Prod.fst =
        List.range' i (ItemList.renderRows cursor h i items).length := by
  intro items
  induction items with
  | nil =>
    intro i
    simp [ItemList.renderRows]
  | cons a rest ih =>
    intro i
    rw [ItemList.renderRows]
    by_cases hbreak : h ≤ (i : ℚ)
    · rw [if_pos hbreak]
      simp [List.range']
    · rw [if_neg hbreak]
      simp only [List.map_cons, List.length_cons, List.range'_succ]
      rw [ih (i + 1)]

/-- `ItemList.renderRows` emits at most one row per item. -/
lemma renderRows_length_le {T : Type} (cursor : Nat) (h : ℚ) :
    ∀ (items : List T) (i : Nat),
      (ItemList.renderRows cursor h i items).length ≤ items.length := by
  intro items
  induction items with
  | nil => intro i; simp [ItemList.renderRows]
  | cons a rest ih =>
    intro i
    rw [ItemList.renderRows]
    by_cases hbreak : h ≤ (i : ℚ)
    · rw [if_pos hbreak]
      simp
    · rw [if_neg hbreak]
      simp only [List.length_cons]
      exact Nat.succ_le_succ (ih (i + 1))

/-- C8, counterexample: an `ItemList` of three items in a rectangle of
height 1. The loop draws row `i` *before* testing `i as f32 >= rect.h`,
so row index 1 — which is at (not below) `rect.height = 1` — is still
drawn, contradicting "no item whose row index is at or beyond rect.height
is drawn". -/
theorem itemList_render_cex :
    ((1 : Nat), ColorPair.REGULAR_PAIR) ∈
        ItemList.render (⟨[5, 6, 7], 0⟩ : ItemList Nat) ⟨0, 0, 10, 1⟩ ∧
    ¬ (((1 : Nat) : ℚ) < (Rect.mk 0 0 10 1).h) := by
  constructor
  · decide
  · decide

/-- C8, amended: for every item list, cursor and rectangle of non-negative
height, `ItemList::render` draws one row per item in order, top-aligned
(the emitted row indices are exactly `0, 1, 2, …`, row `i` at
`y = rect.y + i`), the row at the cursor in the selected color role and
every other row in the regular role; it stops after drawing the *first*
row whose index is `≥ rect.height`, so every drawn row index is
`< rect.height + 1` (at most one row extends beyond the rectangle, and no
row index strictly beyond `rect.height` is ever drawn). -/
theorem itemList_render_amended {T : Type} (items : List T) (cursor : Nat) (rect : Rect)
    (hh : 0 ≤ rect.h) :
    (∀ p ∈ ItemList.render (⟨items, cursor⟩ : ItemList T) rect,
        ((p.1 : ℚ) < rect.h + 1) ∧ (p.2 = ColorPair.CURSOR_PAIR ↔ p.1 = cursor)) ∧
    (ItemList.render (⟨items, cursor⟩ : ItemList T) rect).map Prod.fst =
      List.range (ItemList.render (⟨items, cursor⟩ : ItemList T) rect).length ∧
    (ItemList.render (⟨items, cursor⟩ : ItemList T) rect).length ≤ items.length := by
  refine ⟨?_, ?_, ?_⟩
  · rintro ⟨j, col⟩ hmem
    have hfacts := renderRows_mem cursor rect.h items 0 j col hmem
    refine ⟨?_, hfacts.2⟩
    rcases hfacts.1 with h0 | hlt
    · subst h0
      push_cast
      linarith
    · exact hlt
  · rw [List.range_eq_range']
    exact renderRows_map_fst cursor rect.h items 0
  · exact renderRows_length_le cursor rect.h items 0

/-- C8, witness: the amended render bound at the concrete list `[5, 6]`
with cursor 0 in a 10×5 rectangle. -/
theorem itemList_render_amended_witness :
    (ItemList.render (⟨[5, 6], 0⟩ : ItemList Nat) ⟨0, 0, 10, 5⟩).length ≤
      ([5, 6] : List Nat).length :=
  (itemList_render_amended [5, 6] 0 ⟨0, 0, 10, 5⟩ (by decide)).2.2

/-- The `i`-th child rectangle produced by `HBox::render`. -/
lemma hbox_get {rect : Rect} {n i : Nat} (h : i < n) :
    (HBox.render rect n).get? i =
      some ⟨rect.x + rect.w / (n : ℚ) * (i : ℚ), rect.y, rect.w / (n : ℚ), rect.h⟩ := by
  unfold HBox.render
  rw [List.get?_map, List.get?_range h]
  rfl

/-- The `i`-th child rectangle produced by `VBox::render`. -/
lemma vbox_get {rect : Rect} {n i : Nat} (h : i < n) :
    (VBox.render rect n).get? i =
      some ⟨rect.x, rect.y + rect.h / (n : ℚ) * (i : ℚ), rect.w, rect.h / (n : ℚ)⟩ := by
  unfold VBox.render
  rw [List.get?_map, List.get?_range h]
  rfl

/-- C9: for `N > 0` children, `HBox::render` gives child `i` the segment
with `x = rect.x + (rect.w / N) · i`, width `rect.w / N` and the full
height and `y`; dually `VBox::render` along the height axis; consecutive
segments are adjacent (`x_{i+1} = x_i + w_i`, no gap and no overlap), and
the widths (resp. heights) of the `N` segments sum exactly to `rect.w`
(resp. `rect.h`) in the exact-rational model of `f32` arithmetic. -/
theorem hbox_vbox_layout (rect : Rect) (n : Nat) (hn : 0 < n) :
    (∀ i, i < n → (HBox.render rect n).get? i =
        some ⟨rect.x + rect.w / (n : ℚ) * (i : ℚ), rect.y, rect.w / (n : ℚ), rect.h⟩) ∧
    ((HBox.render rect n).map Rect.w).sum = rect.w ∧
    (∀ i, i + 1 < n → ∃ r r', (HBox.render rect n).get? i = some r ∧
        (HBox.render rect n).get? (i + 1) = some r' ∧
        r'.x = r.x + r.w ∧ r'.y = r.y ∧ r'.h = r.h) ∧
    (∀ i, i < n → (VBox.render rect n).get? i =
        some ⟨rect.x, rect.y + rect.h / (n : ℚ) * (i : ℚ), rect.w, rect.h / (n : ℚ)⟩) ∧
    ((VBox.render rect n).map Rect.h).sum = rect.h ∧
    (∀ i, i + 1 < n → ∃ r r', (VBox.render rect n).get? i = some r ∧
        (VBox.render rect n).get? (i + 1) = some r' ∧
        r'.y = r.y + r.h ∧ r'.x = r.x ∧ r'.w = r.w) := by
  have hne : (n : ℚ) ≠ 0 := Nat.cast_ne_zero.mpr hn.ne'
  refine ⟨fun i h => hbox_get h, ?_, ?_, fun i h => vbox_get h, ?_, ?_⟩
  · unfold HBox.render
    rw [List.map_map]
    show ((List.range n).map (fun _ => rect.w / (n : ℚ))).sum = rect.w
    rw [List.map_const', List.sum_replicate, List.length_range, nsmul_eq_mul,
      mul_comm, div_mul_cancel₀ _ hne]
  · intro i h
    refine ⟨_, _, hbox_get (by omega), hbox_get h, ?_, rfl, rfl⟩
    simp only []
    push_cast
    ring
  · unfold VBox.render
    rw [List.map_map]
    show ((List.range n).map (fun _ => rect.h / (n : ℚ))).sum = rect.h
    rw [List.map_const', List.sum_replicate, List.length_range, nsmul_eq_mul,
      mul_comm, div_mul_cancel₀ _ hne]
  · intro i h
    refine ⟨_, _, vbox_get (by omega), vbox_get h, ?_, rfl, rfl⟩
    simp only []
    push_cast
    ring

/-- C9, witness: for a 10×4 rectangle split among 2 children, the child
widths sum to the full width 10. -/
theorem hbox_vbox_layout_witness :
    ((HBox.render ⟨0, 0, 10, 4⟩ 2).map Rect.w).sum = (Rect.mk 0 0 10 4).w :=
  (hbox_vbox_layout ⟨0, 0, 10, 4⟩ 2 (by decide)).2.1
